import Mathlib

/-!
# Verification of `ursparseness.c`

A shallow embedding of the ursparse transfer-format decoder and the sparse
encoder from `src/ursparseness.c`, together with theorems settling the
specification's claims about them.

Modelling conventions:
* Byte buffers are `List Char` (a C `char` viewed as a character; the header
  bytes the parsers inspect are ASCII, payload bytes are opaque).
* `off_t` / `size_t` quantities are `Nat` (all values the program computes
  with are non-negative; no claim under scrutiny concerns integer overflow).
  Return codes, which mix negative error codes with non-negative counts,
  are `Int`.
* The output file (fd 1) is an ideal seekable sink `Sink`: a write cursor,
  the current file size, and the written bytes (`none` = never written, i.e.
  a hole).  `write` accepts everything offered in one call and `lseek` on it
  always succeeds, matching a regular destination file.
* The input file of the decode orchestrator is a list of chunks: the
  successive non-empty results of `read`; the end of the list (or an empty
  chunk) is the zero-length read signalling EOF.  `malloc` and `read`
  failures are not modelled.
* The sparse source interface of the encoder (`lseek` with `SEEK_DATA` /
  `SEEK_HOLE`, and `copy_file_range`) is an oracle: `nd p` / `nh p` give the
  next data / hole position at or after `p`, `none` standing for the
  `ENXIO` ("end of file reached") outcome; `cfr start sz` gives the value
  `copy_file_range` returns for that request.  Source bytes are `src : Int
  → Char`.
-/

/-- Result of `parse_uint`: the C return code (`err` carries the negative
code), the consumed-byte count `*out_sz`, and the accumulator `*out_n`
(updated through the pointer on every path). -/
inductive PUOut where
  | err (code : Int) (n : Nat)
  | done (consumed : Nat) (n : Nat)
  | more (consumed : Nat) (n : Nat)
deriving DecidableEq

/-- Result of `parse_newline`. -/
inductive PNOut where
  | err (code : Int)
  | done (consumed : Nat)
  | more (consumed : Nat)
deriving DecidableEq

/-- The first loop of `parse_uint` (ursparseness.c:56-57): number of leading
spaces / newlines. -/
def skipSpNl : List Char → Nat
  | [] => 0
  | ch :: cs => if ch = ' ' ∨ ch = '\n' then skipSpNl cs + 1 else 0

/-- The first loop of `parse_newline` (ursparseness.c:105-106): number of
leading spaces. -/
def skipSp : List Char → Nat
  | [] => 0
  | ch :: cs => if ch = ' ' then skipSp cs + 1 else 0

/-- The digit accumulation step `*out_n = *out_n * 10 + (c - '0')`
(ursparseness.c:63-64). -/
def accDigit (n : Nat) (ch : Char) : Nat :=
  n * 10 + (ch.toNat - '0'.toNat)

/-- The main loop of `parse_uint` (ursparseness.c:60-80): `i` is the index
reached so far, `n` the accumulator.  Digits accumulate; a space or newline
stops with `*out_sz = i` (the terminator itself not counted); any other
character is the fatal `-1`; end of buffer reports `i` as an intermediate
result. -/
def puLoop : List Char → Nat → Nat → PUOut
  | [], i, n => .more i n
  | ch :: cs, i, n =>
    if '0' ≤ ch ∧ ch ≤ '9' then puLoop cs (i + 1) (accDigit n ch)
    else if ch = ' ' ∨ ch = '\n' then .done i n
    else .err (-1) n

/-- `parse_uint` (ursparseness.c:45-81).  An empty buffer is the `-2` error;
leading spaces/newlines are skipped only while the accumulator is zero
(the "not yet started" signal of ursparseness.c:54). -/
def parse_uint (buff : List Char) (n : Nat) : PUOut :=
  if buff = [] then .err (-2) n
  else
    let k := if n = 0 then skipSpNl buff else 0
    puLoop (List.drop k buff) k n

/-- `parse_newline` (ursparseness.c:96-121): skip spaces, then require a
newline (consumed: `*out_sz = i + 1`); any other character is fatal;
running out of buffer is an intermediate result. -/
def parse_newline (buff : List Char) : PNOut :=
  if buff = [] then .err (-2)
  else
    let k := skipSp buff
    match List.drop k buff with
    | [] => .more k
    | ch :: _ => if ch = '\n' then .done (k + 1) else .err (-1)

/-- The destination file (fd 1) as seen by the decoder: write cursor, file
size, and contents (`none` = hole, never written). -/
structure Sink where
  pos : Nat
  size : Nat
  data : Nat → Option Char

/-- The destination before any write: empty file, cursor at 0. -/
def sink0 : Sink := ⟨0, 0, fun _ => none⟩

/-- One byte accepted by `write(1, ...)`: stored at the cursor, cursor and
(if extended) file size advance. -/
def writeByte (s : Sink) (ch : Char) : Sink :=
  { pos := s.pos + 1
    size := max s.size (s.pos + 1)
    data := fun j => if j = s.pos then some ch else s.data j }

def writeBytes : Sink → List Char → Sink
  | s, [] => s
  | s, ch :: cs => writeBytes (writeByte s ch) cs

/-- Result of `do_meat`: return code, `*out_sz` (bytes written), new sink. -/
structure MeatRes where
  ret : Int
  consumed : Nat
  s : Sink

/-- `do_meat` (ursparseness.c:126-150): a zero-size request is the `-2`
error; otherwise the write loop runs until all `n` bytes are accepted,
which on the ideal sink is a single `write` accepting everything, and the
byte count is returned. -/
def do_meat (buff : List Char) (n : Nat) (s : Sink) : MeatRes :=
  if n = 0 then ⟨-2, 0, s⟩
  else ⟨Int.ofNat n, n, writeBytes s (List.take n buff)⟩

/-- `do_hole` (ursparseness.c:155-164): `lseek(1, offset, SEEK_SET)`, which
on the ideal seekable sink always succeeds and moves the cursor. -/
def do_hole (offset : Nat) (s : Sink) : Int × Sink :=
  (0, { s with pos := offset })

/-- `enum ursparse_state` (ursparseness.c:166-173). -/
inductive UState where
  | start
  | offset
  | size
  | newline
  | meat
  | error
deriving DecidableEq

/-- `struct ursparse_state_data` (ursparseness.c:175-178): the segment being
parsed plus the phase. -/
structure StateData where
  offset : Nat
  size : Nat
  state : UState
deriving DecidableEq

/-- The zeroed state `memset(&data, 0, ...)` starts from. -/
def data0 : StateData := ⟨0, 0, .start⟩

/-- Result of one `parse_ursparse` call: return code, `*out_sz` as the
caller observes it, the updated state, the updated sink. -/
structure PResult where
  ret : Int
  consumed : Nat
  d : StateData
  s : Sink

/-- The `PARSE_MEAT` arm of `parse_ursparse` (ursparseness.c:275-300).
`extra` is `extra_sz`, the header bytes consumed earlier in the same call.
The request size is `sz > size ? size : sz`, i.e. `min`.  On success the
remaining segment size shrinks by the bytes written; reaching zero resets
the whole state to zero (`memset`) and returns 0, otherwise the total
consumed in this call is returned.  Note `*out_sz += extra_sz` happens only
on the two success paths, as in the C. -/
def phaseMeat (buff : List Char) (extra : Nat) (d : StateData) (s : Sink) : PResult :=
  let m := do_meat buff (min buff.length d.size) s
  if m.ret < 0 then ⟨m.ret, 0, { d with state := .error }, m.s⟩
  else if d.size < m.consumed then ⟨-7, 0, { d with state := .error }, m.s⟩
  else
    let d' := { d with size := d.size - m.consumed }
    let total := m.consumed + extra
    if d'.size = 0 then ⟨0, total, data0, m.s⟩
    else ⟨Int.ofNat total, total, d', m.s⟩

/-- The `PARSE_NEWLINE` arm (ursparseness.c:247-273): on completion the
hole seek to the declared offset runs (failure would be `-8`), then control
falls through into the meat phase.  On an intermediate result the call
returns only the newline-parser count (`extra` is not added — exactly the
C's `return *out_sz`). -/
def phaseNewline (buff : List Char) (extra : Nat) (d : StateData) (s : Sink) : PResult :=
  match parse_newline buff with
  | .err code => ⟨code, 0, { d with state := .error }, s⟩
  | .more consumed => ⟨Int.ofNat consumed, consumed, d, s⟩
  | .done consumed =>
    let h := do_hole d.offset s
    if h.1 < 0 then ⟨-8, 0, { d with state := .error }, h.2⟩
    else phaseMeat (List.drop consumed buff) (extra + consumed) { d with state := .meat } h.2

/-- The `PARSE_SIZE` arm (ursparseness.c:227-245): the length field parses
into `data->ursparse.size`; on completion control falls through to the
newline phase.  As in the C, an intermediate return reports only this
parser's count. -/
def phaseSize (buff : List Char) (extra : Nat) (d : StateData) (s : Sink) : PResult :=
  match parse_uint buff d.size with
  | .err code n => ⟨code, 0, { d with size := n, state := .error }, s⟩
  | .more consumed n => ⟨Int.ofNat consumed, consumed, { d with size := n }, s⟩
  | .done consumed n =>
    phaseNewline (List.drop consumed buff) (extra + consumed)
      { d with size := n, state := .newline } s

/-- The `PARSE_OFFSET` arm (ursparseness.c:208-225): the offset field parses
into `data->ursparse.offset`; on completion control falls through to the
size phase. -/
def phaseOffset (buff : List Char) (extra : Nat) (d : StateData) (s : Sink) : PResult :=
  match parse_uint buff d.offset with
  | .err code n => ⟨code, 0, { d with offset := n, state := .error }, s⟩
  | .more consumed n => ⟨Int.ofNat consumed, consumed, { d with offset := n }, s⟩
  | .done consumed n =>
    phaseSize (List.drop consumed buff) (extra + consumed)
      { d with offset := n, state := .size } s

/-- `parse_ursparse` (ursparseness.c:192-308): the `!sz` guard (`-2`) comes
before the state switch; `PARSE_START` immediately becomes `PARSE_OFFSET`
and falls through; `PARSE_ERROR` is the immediate `-5`; the unreachable
`default` would be `-6`. -/
def parse_ursparse (buff : List Char) (d : StateData) (s : Sink) : PResult :=
  if buff = [] then ⟨-2, 0, d, s⟩
  else
    match d.state with
    | .start => phaseOffset buff 0 { d with state := .offset } s
    | .offset => phaseOffset buff 0 d s
    | .size => phaseSize buff 0 d s
    | .newline => phaseNewline buff 0 d s
    | .meat => phaseMeat buff 0 d s
    | .error => ⟨-5, 0, d, s⟩

/-- The inner cursor loop of `do_ursparse` (ursparseness.c:338-349): run the
decoder over one read block until it is fully consumed; a negative decoder
result makes the run return 4.  The fuel is an upper bound on the number of
iterations (the cursor strictly advances on every non-negative return); the
wrapper passes `length + 1`, which always suffices, so the `999` fuel-out
marker is unreachable. -/
def processChunk : Nat → List Char → StateData → Sink → Option Int × StateData × Sink
  | 0, _, d, s => (some 999, d, s)
  | fuel + 1, buff, d, s =>
    if buff = [] then (none, d, s)
    else
      let r := parse_ursparse buff d s
      if r.ret < 0 then (some 4, r.d, r.s)
      else processChunk fuel (List.drop r.consumed buff) r.d r.s

/-- The read loop of `do_ursparse` (ursparseness.c:327-350): chunks are the
successive successful reads; the list ending (or an empty chunk) is the
zero-length read, on which the loop breaks and the function returns 0 —
whatever state the decoder is in.  (The final decoder state is returned
too, for observation; the C keeps it in a local.)  -/
def runChunks : List (List Char) → StateData → Sink → Int × StateData × Sink
  | [], d, s => (0, d, s)
  | c :: rest, d, s =>
    if c = [] then (0, d, s)
    else
      match processChunk (c.length + 1) c d s with
      | (some code, d', s') => (code, d', s')
      | (none, d', s') => runChunks rest d' s'

/-- `do_ursparse` (ursparseness.c:310-354): first `lseek(fd_in, 0,
SEEK_SET)`, whose failure (a non-seekable input) returns 1 before anything
is read or written; then the zeroed state is created and the read loop
runs. -/
def do_ursparse (seekable : Bool) (chunks : List (List Char)) : Int × StateData × Sink :=
  if seekable then runChunks chunks data0 sink0
  else (1, data0, sink0)

/-- One record as it lands on the encoder's output: the header line emitted
by `dprintf(fd_out, "%ld %ld\n", start, sz)` and the payload bytes the copy
primitive moved. -/
structure EncRec where
  hdr : String
  payload : List Char
deriving DecidableEq

/-- The header line `"<offset> <length>\n"` that `dprintf` renders. -/
def hdrString (start sz : Int) : String :=
  toString start ++ " " ++ toString sz ++ "\n"

/-- `do_sparse_copy_data` (ursparseness.c:356-364): a single
`copy_file_range` request of `sz` bytes from `start`; the oracle `cfr`
gives its result, `-1` being the only outcome treated as failure — the
value is passed through otherwise, short or not. -/
def do_sparse_copy_data (cfr : Int → Int → Int) (start sz : Int) : Int :=
  cfr start sz

/-- `do_sparse_data` (ursparseness.c:366-378): emit the header line, then
one bulk copy.  On the ideal sink `dprintf` writes the whole header (always
at least the 4 characters of `"0 0\n"`, so its `4 >` guard cannot fire);
the payload that lands on the output is the `r` source bytes starting at
`start`, where `r` is whatever the copy primitive reported. -/
def do_sparse_data (cfr : Int → Int → Int) (src : Int → Char) (start sz : Int)
    (out : List EncRec) : Int × List EncRec :=
  let hdr := hdrString start sz
  let r := do_sparse_copy_data cfr start sz
  if r = -1 then (-1, out ++ [⟨hdr, []⟩])
  else (0, out ++ [⟨hdr, (List.range r.toNat).map (fun i => src (start + i))⟩])

/-- The code after the scan loop of `do_sparse` (ursparseness.c:418-423):
emit `[start, e)` once more, but only when neither `start` nor `e` is the
`-1` left behind by an `ENXIO` break. -/
def do_sparse_tail (cfr : Int → Int → Int) (src : Int → Char) (start e : Int)
    (out : List EncRec) : Int × List EncRec :=
  if start ≠ -1 ∧ e ≠ -1 then
    let r := do_sparse_data cfr src start (e - start) out
    if r.1 = 0 then (0, r.2) else (3, r.2)
  else (0, out)

/-- The scan loop of `do_sparse` (ursparseness.c:388-416): `start` jumps to
the next data position (`ENXIO` leaves `start = -1` and breaks), `e` to the
next hole position after it (`ENXIO` leaves `e = -1` and breaks), the
extent `[start, e)` is emitted (a failure returns 2), and the scan resumes
at `e`.  Fuel bounds the iterations; the `999` marker flags exhaustion and
is never reached in the concrete runs below. -/
def do_sparse_go : Nat → (Int → Option Int) → (Int → Option Int) → (Int → Int → Int) →
    (Int → Char) → Int → Int → List EncRec → Int × List EncRec
  | 0, _, _, _, _, _, _, out => (999, out)
  | fuel + 1, nd, nh, cfr, src, start, e, out =>
    match nd start with
    | none => do_sparse_tail cfr src (-1) e out
    | some st =>
      match nh st with
      | none => do_sparse_tail cfr src st (-1) out
      | some en =>
        let r := do_sparse_data cfr src st (en - st) out
        if r.1 = 0 then do_sparse_go fuel nd nh cfr src en en r.2
        else (2, r.2)

/-- `do_sparse` (ursparseness.c:380-426): rewind to 0 (the input is assumed
seekable), `end` starts at 0, then the scan loop and the final block run. -/
def do_sparse (fuel : Nat) (nd nh : Int → Option Int) (cfr : Int → Int → Int)
    (src : Int → Char) : Int × List EncRec :=
  do_sparse_go fuel nd nh cfr src 0 0 []

/-- The worked example stream of the spec: `"10 5\nABCDE"`. -/
def sampleStream : List Char := ['1', '0', ' ', '5', '\n', 'A', 'B', 'C', 'D', 'E']

/-- A truncated stream: header `10 5` followed by only 3 of the 5 declared
payload bytes, then end of input. -/
def truncStream : List Char := ['1', '0', ' ', '5', '\n', 'A', 'B', 'C']

/-- Sparse-source oracle: one data extent beginning at position 0. -/
def ndAtZero : Int → Option Int := fun p => if p = 0 then some 0 else none

/-- Next-hole oracle reporting `ENXIO` everywhere: the data runs to end of
file from any position inside it. -/
def nhNone : Int → Option Int := fun _ => none

/-- Next-hole oracle: the extent starting at 0 ends at 5; past it, `ENXIO`. -/
def nhFive : Int → Option Int := fun p => if p = 0 then some 5 else none

/-- A copy primitive that accepts only 3 bytes of any request. -/
def cfrShort : Int → Int → Int := fun _ _ => 3

/-- A constant source file: every byte reads as `'a'`. -/
def srcA : Int → Char := fun _ => 'a'

/-! ## Helper lemmas -/

theorem digit_not_ws {x : Char} (h : '0' ≤ x ∧ x ≤ '9') : ¬(x = ' ' ∨ x = '\n') := by
  rintro (rfl | rfl)
  · exact absurd h.1 (by decide)
  · exact absurd h.1 (by decide)

theorem ws_not_digit {x : Char} (h : x = ' ' ∨ x = '\n') : ¬('0' ≤ x ∧ x ≤ '9') := by
  rcases h with rfl | rfl
  · decide
  · decide

theorem skipSpNl_cons_of_not {x : Char} {t : List Char} (h : ¬(x = ' ' ∨ x = '\n')) :
    skipSpNl (x :: t) = 0 := by
  simp [skipSpNl, h]

theorem skipSp_cons_of_not {x : Char} {t : List Char} (h : x ≠ ' ') :
    skipSp (x :: t) = 0 := by
  simp [skipSp, h]

/-- Running `puLoop` over a block of digits accumulates them and moves the
index past the block. -/
theorem puLoop_append_digits (ds : List Char) (hds : ∀ x ∈ ds, '0' ≤ x ∧ x ≤ '9')
    (t : List Char) (i n : Nat) :
    puLoop (ds ++ t) i n = puLoop t (i + ds.length) (List.foldl accDigit n ds) := by
  induction ds generalizing i n with
  | nil => simp
  | cons x xs ih =>
    have hx : '0' ≤ x ∧ x ≤ '9' := hds x (List.mem_cons_self x xs)
    have hxs : ∀ y ∈ xs, '0' ≤ y ∧ y ≤ '9' := fun y hy => hds y (List.mem_cons_of_mem x hy)
    simp only [List.cons_append, puLoop, if_pos hx, List.append_eq]
    rw [ih hxs]
    have harith : i + 1 + xs.length = i + (x :: xs).length := by
      simp [List.length_cons]; omega
    rw [harith]
    rfl

/-- For a buffer that opens with digits (or directly with a non-whitespace
byte), no leading whitespace is skipped, whatever the accumulator holds. -/
theorem parse_uint_digits_start (ds : List Char) (hds : ∀ x ∈ ds, '0' ≤ x ∧ x ≤ '9')
    (ch : Char) (hch : ds = [] → ¬(ch = ' ' ∨ ch = '\n')) (rest : List Char) (n : Nat) :
    parse_uint (ds ++ ch :: rest) n =
      puLoop (ch :: rest) ds.length (List.foldl accDigit n ds) := by
  have hne : ds ++ ch :: rest ≠ [] := by simp
  have hskip : skipSpNl (ds ++ ch :: rest) = 0 := by
    cases ds with
    | nil => exact skipSpNl_cons_of_not (hch rfl)
    | cons x xs =>
      rw [List.cons_append]
      exact skipSpNl_cons_of_not (digit_not_ws (hds x (List.mem_cons_self x xs)))
  unfold parse_uint
  rw [if_neg hne]
  simp only [hskip, ite_self, List.drop_zero]
  rw [puLoop_append_digits ds hds (ch :: rest) 0 n, Nat.zero_add]

/-- `parse_uint` on digits followed by a space or newline: the done result,
counting only the digit bytes. -/
theorem parse_uint_terminated (ds : List Char) (hne : ds ≠ [])
    (hds : ∀ x ∈ ds, '0' ≤ x ∧ x ≤ '9') (ch : Char) (hch : ch = ' ' ∨ ch = '\n')
    (rest : List Char) (n : Nat) :
    parse_uint (ds ++ ch :: rest) n =
      .done ds.length (List.foldl accDigit n ds) := by
  rw [parse_uint_digits_start ds hds ch (fun h => absurd h hne) rest n]
  simp only [puLoop, if_neg (ws_not_digit hch), if_pos hch]

/-- `parse_uint` on digits followed by a byte that is neither a digit nor a
space nor a newline: the fatal `-1` with the accumulator updated through
the digits. -/
theorem parse_uint_invalid (ds : List Char) (hds : ∀ x ∈ ds, '0' ≤ x ∧ x ≤ '9')
    (ch : Char) (hd : ¬('0' ≤ ch ∧ ch ≤ '9')) (hs : ch ≠ ' ') (hn : ch ≠ '\n')
    (rest : List Char) (n : Nat) :
    parse_uint (ds ++ ch :: rest) n = .err (-1) (List.foldl accDigit n ds) := by
  have hch : ¬(ch = ' ' ∨ ch = '\n') := fun h => h.elim hs hn
  rw [parse_uint_digits_start ds hds ch (fun _ => hch) rest n]
  simp only [puLoop, if_neg hd, if_neg hch]

/-- `parse_newline` on a digit-or-invalid opening: any byte other than a
space before the newline is the fatal `-1`. -/
theorem parse_newline_invalid (ds : List Char) (hds : ∀ x ∈ ds, '0' ≤ x ∧ x ≤ '9')
    (ch : Char) (hs : ch ≠ ' ') (hn : ch ≠ '\n') (rest : List Char) :
    parse_newline (ds ++ ch :: rest) = .err (-1) := by
  cases ds with
  | nil =>
    unfold parse_newline
    rw [List.nil_append, if_neg (List.cons_ne_nil ch rest)]
    simp only [skipSp_cons_of_not hs, List.drop_zero]
    simp [hn]
  | cons x xs =>
    have hx : '0' ≤ x ∧ x ≤ '9' := hds x (List.mem_cons_self x xs)
    have hxs : ¬(x = ' ' ∨ x = '\n') := digit_not_ws hx
    have hxsp : x ≠ ' ' := fun h => hxs (Or.inl h)
    have hxnl : x ≠ '\n' := fun h => hxs (Or.inr h)
    unfold parse_newline
    rw [List.cons_append, if_neg (List.cons_ne_nil x (xs ++ ch :: rest))]
    simp only [skipSp_cons_of_not hxsp, List.drop_zero]
    simp [hxnl]

/-- The whitespace skip walks through an all-whitespace block. -/
theorem skipSpNl_append (ws : List Char) (hws : ∀ x ∈ ws, x = ' ' ∨ x = '\n')
    (t : List Char) : skipSpNl (ws ++ t) = ws.length + skipSpNl t := by
  induction ws with
  | nil => simp
  | cons x xs ih =>
    have hx : x = ' ' ∨ x = '\n' := hws x (List.mem_cons_self x xs)
    have hxs : ∀ y ∈ xs, y = ' ' ∨ y = '\n' := fun y hy => hws y (List.mem_cons_of_mem x hy)
    simp only [List.cons_append, skipSpNl, if_pos hx, List.append_eq, ih hxs,
      List.length_cons]
    omega

/-- The space skip of `parse_newline` walks through an all-space block. -/
theorem skipSp_append (sps : List Char) (hs : ∀ x ∈ sps, x = ' ')
    (t : List Char) : skipSp (sps ++ t) = sps.length + skipSp t := by
  induction sps with
  | nil => simp
  | cons x xs ih =>
    have hx : x = ' ' := hs x (List.mem_cons_self x xs)
    have hxs : ∀ y ∈ xs, y = ' ' := fun y hy => hs y (List.mem_cons_of_mem x hy)
    simp only [List.cons_append, skipSp, if_pos hx, List.append_eq, ih hxs,
      List.length_cons]
    omega

/-- A run of `'0'` digits accumulates to the value 0. -/
theorem foldl_accDigit_zeros (zds : List Char) (hz : ∀ x ∈ zds, x = '0') :
    List.foldl accDigit 0 zds = 0 := by
  induction zds with
  | nil => rfl
  | cons x xs ih =>
    have hx : x = '0' := hz x (List.mem_cons_self x xs)
    simp only [List.foldl_cons, hx]
    exact ih (fun y hy => hz y (List.mem_cons_of_mem x hy))

/-- `parse_uint` on leading whitespace (skippable only on a zero
accumulator), digits, and a space/newline terminator: done, counting the
skipped whitespace and the digits but not the terminator. -/
theorem parse_uint_ws_digits_done (ws ds : List Char) (ch : Char)
    (rest : List Char) (n : Nat)
    (hws : ∀ x ∈ ws, x = ' ' ∨ x = '\n')
    (hds : ∀ x ∈ ds, '0' ≤ x ∧ x ≤ '9')
    (hch : ch = ' ' ∨ ch = '\n')
    (h0 : n = 0 → ds ≠ [])
    (h1 : n ≠ 0 → ws = []) :
    parse_uint (ws ++ ds ++ ch :: rest) n =
      .done (ws.length + ds.length) (List.foldl accDigit n ds) := by
  simp only [List.append_assoc]
  by_cases hn : n = 0
  · subst hn
    obtain ⟨x, xs, rfl⟩ : ∃ x xs, ds = x :: xs := by
      cases ds with
      | nil => exact absurd rfl (h0 rfl)
      | cons x xs => exact ⟨x, xs, rfl⟩
    have hxd : '0' ≤ x ∧ x ≤ '9' := hds x (List.mem_cons_self x xs)
    have hne : ws ++ ((x :: xs) ++ ch :: rest) ≠ [] := by simp
    have hsk : skipSpNl (ws ++ ((x :: xs) ++ ch :: rest)) = ws.length := by
      rw [skipSpNl_append ws hws, List.cons_append,
        skipSpNl_cons_of_not (digit_not_ws hxd)]
      omega
    unfold parse_uint
    rw [if_neg hne, if_pos rfl, hsk]
    simp only [List.drop_left]
    rw [puLoop_append_digits (x :: xs) hds (ch :: rest) ws.length 0]
    simp only [puLoop, if_neg (ws_not_digit hch), if_pos hch]
  · rw [h1 hn]
    simp only [List.nil_append, List.length_nil, Nat.zero_add]
    have hne : ds ++ ch :: rest ≠ [] := by simp
    unfold parse_uint
    rw [if_neg hne, if_neg hn]
    simp only [List.drop_zero]
    rw [puLoop_append_digits ds hds (ch :: rest) 0 n, Nat.zero_add]
    simp only [puLoop, if_neg (ws_not_digit hch), if_pos hch]

/-- The meat arm on a segment whose remaining size is 0: `do_meat` is
offered `min(sz, 0) = 0` bytes, rejects the zero-size write with `-2`, and
the state locks to error with the sink untouched. -/
theorem phaseMeat_zero_size (buff : List Char) (extra : Nat) (o : Nat) (s : Sink) :
    phaseMeat buff extra ⟨o, 0, UState.meat⟩ s = ⟨-2, 0, ⟨o, 0, UState.error⟩, s⟩ := by
  unfold phaseMeat
  rw [Nat.min_zero]
  rfl

/-- `parse_newline` on spaces followed by a newline: done, with the spaces
and the newline consumed. -/
theorem parse_newline_done_spaces (sps : List Char) (hsps : ∀ x ∈ sps, x = ' ')
    (rest : List Char) : parse_newline (sps ++ '\n' :: rest) = .done (sps.length + 1) := by
  have hne : sps ++ '\n' :: rest ≠ [] := by simp
  have hsk : skipSp (sps ++ '\n' :: rest) = sps.length := by
    rw [skipSp_append sps hsps, skipSp_cons_of_not (by decide)]
    omega
  unfold parse_newline
  rw [if_neg hne]
  simp only [hsk, List.drop_left, if_true]

/-! ## Claim theorems -/

/-- Claim C1: the spec asserts split invariance — decoding a valid stream
split into two chunks at any point `k` equals decoding it whole.  The code
violates this: the example stream `"10 5\nABCDE"` decodes whole to a
success (return 0), but fed as the two chunks `"10 5"` and `"\nABCDE"`
(split at `k = 4`) the run fails with return 4, because on the
need-more-data return from the size phase `parse_ursparse` reports only the
size-field bytes in `*out_sz`, dropping the offset-field bytes consumed in
the same call, so the orchestrator re-feeds already-consumed bytes. -/
theorem split_invariance_fails :
    (do_ursparse true [sampleStream]).1 = 0 ∧
    (do_ursparse true [List.take 4 sampleStream, List.drop 4 sampleStream]).1 = 4 := by
  decide

/-- Claim C2: the spec requires a stream that ends mid-record to be
classified as a `Truncation` error.  The code instead returns success: on
the truncated stream `"10 5\nABC"` (3 of 5 declared payload bytes, then
EOF) `do_ursparse` returns 0 while the decoder is still mid-record in the
meat phase with 2 bytes outstanding. -/
theorem truncation_reported_as_success :
    (do_ursparse true [truncStream]).1 = 0 ∧
    (do_ursparse true [truncStream]).2.1 = ⟨10, 2, UState.meat⟩ := by
  decide

/-- Claim C3: the spec requires the encoder to emit the final extent when
the next-hole lookup reports "end reached while in data".  The code does
not: with a source whose single data extent starts at 0 and runs to end of
file (next-hole reports `ENXIO` everywhere), `do_sparse` returns 0 having
emitted no record at all — the final-extent block after the loop is
unreachable, since every `break` leaves `start` or `end` equal to `-1`. -/
theorem final_extent_not_emitted :
    do_sparse 4 ndAtZero nhNone cfrShort srcA = (0, []) := by
  decide

/-- Claim C4 counterexample: the claim says a run that copies fewer than
`length` bytes for an extent never completes successfully.  With a single
extent `[0, 5)` and a bulk-copy primitive that accepts only 3 bytes (a
short but non-error `copy_file_range` result), the run completes with
return 0 all the same: only a `-1` result is treated as failure. -/
theorem short_copy_accepted_cex :
    do_sparse 4 ndAtZero nhFive cfrShort srcA =
      (0, [⟨"0 5\n", ['a', 'a', 'a']⟩]) := by
  decide

/-- Claim C4 (amended): for every data extent the encoder discovers, it
emits the header line `"<offset> <length>\n"` and then copies the number of
bytes the bulk-copy primitive reports (at most `length`), verbatim from the
input at that offset; the run fails only when the primitive reports the
error `-1` — a short copy is accepted silently and the extent completes
successfully. -/
theorem encoder_extent_emission (cfr : Int → Int → Int) (src : Int → Char)
    (start sz : Int) (out : List EncRec) (h : cfr start sz ≠ -1) :
    do_sparse_data cfr src start sz out =
      (0, out ++ [⟨hdrString start sz,
        (List.range (cfr start sz).toNat).map (fun i => src (start + i))⟩]) := by
  unfold do_sparse_data do_sparse_copy_data
  rw [if_neg h]

/-- Claim C4 witness: the amended emission theorem applied to the concrete
short-copy primitive on the extent `[0, 5)`. -/
theorem encoder_extent_emission_witness :
    do_sparse_data cfrShort srcA 0 5 [] =
      (0, [] ++ [⟨hdrString 0 5,
        (List.range (cfrShort 0 5).toNat).map (fun i => srcA (0 + i))⟩]) :=
  encoder_extent_emission cfrShort srcA 0 5 [] (by decide)

/-- Claim C5 counterexample: the claim says the done result's
bytes-consumed count includes the terminating space.  On the buffer
`"5 "` with a fresh accumulator, `parse_uint` is done with 1 byte consumed
(just the digit) and not 2 — the terminator at index 1 is left in the
buffer. -/
theorem parse_uint_terminator_cex :
    parse_uint ['5', ' '] 0 = PUOut.done 1 5 ∧
    parse_uint ['5', ' '] 0 ≠ PUOut.done 2 5 := by
  decide

/-- Claim C5 (amended): when `parse_uint` reaches a terminating space or
newline after the digits of the field, it returns the done result with a
bytes-consumed count of the bytes scanned before the terminator — the
leading whitespace skipped (possible only on a fresh accumulator) plus the
digit bytes — but not the terminator itself, which this call leaves
unconsumed in the buffer (the next parser's leading-whitespace skip or
newline match absorbs it). -/
theorem parse_uint_done_excludes_terminator (ws ds : List Char) (ch : Char)
    (rest : List Char) (n : Nat)
    (hws : ∀ x ∈ ws, x = ' ' ∨ x = '\n')
    (hds : ∀ x ∈ ds, '0' ≤ x ∧ x ≤ '9')
    (hch : ch = ' ' ∨ ch = '\n')
    (h0 : n = 0 → ds ≠ [])
    (h1 : n ≠ 0 → ws = []) :
    parse_uint (ws ++ ds ++ ch :: rest) n =
      .done (ws.length + ds.length) (List.foldl accDigit n ds) :=
  parse_uint_ws_digits_done ws ds ch rest n hws hds hch h0 h1

/-- Claim C5 witness: the amended theorem on the concrete buffer `" 5\n"`
with a fresh accumulator — one space skipped plus one digit gives 2 bytes
consumed, with the newline terminator left in place. -/
theorem parse_uint_done_excludes_terminator_witness :
    parse_uint (([' '] ++ ['5'] ++ '\n' :: []) : List Char) 0 =
      .done (List.length [' '] + List.length ['5']) (List.foldl accDigit 0 ['5']) :=
  parse_uint_done_excludes_terminator [' '] ['5'] '\n' [] 0 (by decide) (by decide)
    (Or.inr rfl) (fun _ => by decide) (fun hc => absurd rfl hc)

/-- Claim C6: once the decoder state is `Error`, every further
`parse_ursparse` call returns a negative code immediately, consumes
nothing, and leaves both the state and the sink untouched (the `-2`
empty-buffer guard and the `-5` `PARSE_ERROR` arm are the only paths). -/
theorem error_state_permanent (buff : List Char) (d : StateData) (s : Sink)
    (h : d.state = UState.error) :
    (parse_ursparse buff d s).ret < 0 ∧
    (parse_ursparse buff d s).consumed = 0 ∧
    (parse_ursparse buff d s).d = d ∧
    (parse_ursparse buff d s).s = s := by
  obtain ⟨o, sz, st⟩ := d
  have h' : st = UState.error := h
  subst h'
  cases buff with
  | nil => refine ⟨by norm_num [parse_ursparse], rfl, rfl, rfl⟩
  | cons x xs =>
    unfold parse_ursparse
    rw [if_neg (List.cons_ne_nil x xs)]
    exact ⟨by norm_num, rfl, rfl, rfl⟩

/-- Claim C6 witness: the permanence theorem at a concrete errored state
and a non-empty buffer. -/
theorem error_state_permanent_witness :
    (parse_ursparse ['7'] ⟨3, 4, UState.error⟩ sink0).ret < 0 ∧
    (parse_ursparse ['7'] ⟨3, 4, UState.error⟩ sink0).consumed = 0 ∧
    (parse_ursparse ['7'] ⟨3, 4, UState.error⟩ sink0).d = ⟨3, 4, UState.error⟩ ∧
    (parse_ursparse ['7'] ⟨3, 4, UState.error⟩ sink0).s = sink0 :=
  error_state_permanent ['7'] ⟨3, 4, UState.error⟩ sink0 rfl

/-- Claim C7: a header byte outside digits, space and newline — appearing
after any run of digits in the offset, size or newline field — makes the
decode call fail immediately with a negative code, moves the state machine
to `Error`, and writes nothing to the output sink (so no payload byte of
that record is ever emitted). -/
theorem malformed_header_fatal (ds : List Char) (ch : Char) (rest : List Char)
    (d : StateData) (s : Sink)
    (hds : ∀ x ∈ ds, '0' ≤ x ∧ x ≤ '9')
    (hd : ¬('0' ≤ ch ∧ ch ≤ '9')) (hs : ch ≠ ' ') (hn : ch ≠ '\n')
    (hstate : d.state = UState.start ∨ d.state = UState.offset ∨
      d.state = UState.size ∨ d.state = UState.newline) :
    (parse_ursparse (ds ++ ch :: rest) d s).ret < 0 ∧
    (parse_ursparse (ds ++ ch :: rest) d s).d.state = UState.error ∧
    (parse_ursparse (ds ++ ch :: rest) d s).s = s := by
  have hne : ds ++ ch :: rest ≠ [] := by simp
  obtain ⟨o, sz, st⟩ := d
  unfold parse_ursparse
  rw [if_neg hne]
  rcases hstate with h | h | h | h <;> rw [show st = _ from h]
  · unfold phaseOffset
    rw [parse_uint_invalid ds hds ch hd hs hn rest o]
    exact ⟨by norm_num, rfl, rfl⟩
  · unfold phaseOffset
    rw [parse_uint_invalid ds hds ch hd hs hn rest o]
    exact ⟨by norm_num, rfl, rfl⟩
  · unfold phaseSize
    rw [parse_uint_invalid ds hds ch hd hs hn rest sz]
    exact ⟨by norm_num, rfl, rfl⟩
  · unfold phaseNewline
    rw [parse_newline_invalid ds hds ch hs hn rest]
    exact ⟨by norm_num, rfl, rfl⟩

/-- Claim C7 witness: the malformed-header theorem at the byte `'x'` after
the digit `'1'`, from a fresh decoder state on the empty sink. -/
theorem malformed_header_fatal_witness :
    (parse_ursparse (['1'] ++ 'x' :: []) data0 sink0).ret < 0 ∧
    (parse_ursparse (['1'] ++ 'x' :: []) data0 sink0).d.state = UState.error ∧
    (parse_ursparse (['1'] ++ 'x' :: []) data0 sink0).s = sink0 :=
  malformed_header_fatal ['1'] 'x' [] data0 sink0 (by decide) (by decide)
    (by decide) (by decide) (Or.inl rfl)

/-- Claim C8: decoding the whole stream `"10 5\nABCDE"` in one buffer
succeeds (return 0, state reset to zero), seeks the sink to offset 10 and
writes exactly the five payload bytes: the destination is 15 bytes, holes
on `[0, 10)` and `"ABCDE"` on `[10, 15)`. -/
theorem decode_example_ok :
    (do_ursparse true [sampleStream]).1 = 0 ∧
    (do_ursparse true [sampleStream]).2.1 = data0 ∧
    (do_ursparse true [sampleStream]).2.2.size = 15 ∧
    (∀ i, i < 10 → (do_ursparse true [sampleStream]).2.2.data i = none) ∧
    (do_ursparse true [sampleStream]).2.2.data 10 = some 'A' ∧
    (do_ursparse true [sampleStream]).2.2.data 11 = some 'B' ∧
    (do_ursparse true [sampleStream]).2.2.data 12 = some 'C' ∧
    (do_ursparse true [sampleStream]).2.2.data 13 = some 'D' ∧
    (do_ursparse true [sampleStream]).2.2.data 14 = some 'E' := by
  decide

/-- Claim C9: every record whose header declares length 0 — any nonempty
digit run for the offset, any nonempty space/newline separator, any
spelling of the zero length (`"0"`, `"00"`, ...), any spaces before the
header newline, any continuation and any sink — makes the decoder fail
with `-2` instead of completing the empty segment: the header parses, the
hole seek to the declared offset runs, but the meat step offers `do_meat`
a zero-size write, which it rejects, and the state locks into `Error`. -/
theorem zero_length_record_rejected (ods ws1 zds sps rest : List Char) (s : Sink)
    (ho : ods ≠ []) (hods : ∀ x ∈ ods, '0' ≤ x ∧ x ≤ '9')
    (hw : ws1 ≠ []) (hws1 : ∀ x ∈ ws1, x = ' ' ∨ x = '\n')
    (hz : zds ≠ []) (hzds : ∀ x ∈ zds, x = '0')
    (hsps : ∀ x ∈ sps, x = ' ') :
    (parse_ursparse (ods ++ ws1 ++ zds ++ sps ++ '\n' :: rest) data0 s).ret = -2 ∧
    (parse_ursparse (ods ++ ws1 ++ zds ++ sps ++ '\n' :: rest) data0 s).d =
      ⟨List.foldl accDigit 0 ods, 0, UState.error⟩ ∧
    (parse_ursparse (ods ++ ws1 ++ zds ++ sps ++ '\n' :: rest) data0 s).s =
      { s with pos := List.foldl accDigit 0 ods } := by
  obtain ⟨w1, ws1t, rfl⟩ : ∃ a t, ws1 = a :: t := by
    cases ws1 with
    | nil => exact absurd rfl hw
    | cons a t => exact ⟨a, t, rfl⟩
  have hw1 : w1 = ' ' ∨ w1 = '\n' := hws1 w1 (List.mem_cons_self w1 ws1t)
  have hzdig : ∀ x ∈ zds, '0' ≤ x ∧ x ≤ '9' := by
    intro x hx
    rw [hzds x hx]
    decide
  have hfinal : parse_ursparse (ods ++ (w1 :: ws1t) ++ zds ++ sps ++ '\n' :: rest)
      data0 s =
      ⟨-2, 0, ⟨List.foldl accDigit 0 ods, 0, UState.error⟩,
        { s with pos := List.foldl accDigit 0 ods }⟩ := by
    simp only [List.append_assoc, List.cons_append]
    have hpu1 : parse_uint (ods ++ w1 :: (ws1t ++ (zds ++ (sps ++ '\n' :: rest)))) 0 =
        .done ods.length (List.foldl accDigit 0 ods) :=
      parse_uint_terminated ods ho hods w1 hw1 (ws1t ++ (zds ++ (sps ++ '\n' :: rest))) 0
    have hd1 : List.drop ods.length
        (ods ++ w1 :: (ws1t ++ (zds ++ (sps ++ '\n' :: rest)))) =
        w1 :: (ws1t ++ (zds ++ (sps ++ '\n' :: rest))) := List.drop_left ods _
    have hpu2 : parse_uint (w1 :: (ws1t ++ (zds ++ (sps ++ '\n' :: rest)))) 0 =
        .done ((w1 :: ws1t).length + zds.length) 0 := by
      obtain ⟨ch2, rest2, hch2, heq⟩ :
          ∃ c r, (c = ' ' ∨ c = '\n') ∧ sps ++ '\n' :: rest = c :: r := by
        cases sps with
        | nil => exact ⟨'\n', rest, Or.inr rfl, rfl⟩
        | cons p pst =>
          exact ⟨p, pst ++ '\n' :: rest, Or.inl (hsps p (List.mem_cons_self p pst)), rfl⟩
      have h := parse_uint_ws_digits_done (w1 :: ws1t) zds ch2 rest2 0 hws1 hzdig hch2
        (fun _ => hz) (fun hc => absurd rfl hc)
      rw [foldl_accDigit_zeros zds hzds] at h
      simp only [List.append_assoc, List.cons_append] at h
      rw [← heq] at h
      exact h
    have hd2 : List.drop ((w1 :: ws1t).length + zds.length)
        (w1 :: (ws1t ++ (zds ++ (sps ++ '\n' :: rest)))) = sps ++ '\n' :: rest := by
      have hsh : (w1 :: ws1t) ++ zds ++ (sps ++ '\n' :: rest) =
          w1 :: (ws1t ++ (zds ++ (sps ++ '\n' :: rest))) := by
        simp [List.append_assoc]
      rw [← hsh,
        show (w1 :: ws1t).length + zds.length = ((w1 :: ws1t) ++ zds).length from
          (List.length_append _ _).symm]
      exact List.drop_left _ _
    have hpn : parse_newline (sps ++ '\n' :: rest) = .done (sps.length + 1) :=
      parse_newline_done_spaces sps hsps rest
    have hd3 : List.drop (sps.length + 1) (sps ++ '\n' :: rest) = rest := by
      have hsh : (sps ++ ['\n']) ++ rest = sps ++ '\n' :: rest := by simp
      rw [← hsh, show sps.length + 1 = (sps ++ ['\n']).length from by simp]
      exact List.drop_left _ _
    have hne : ods ++ w1 :: (ws1t ++ (zds ++ (sps ++ '\n' :: rest))) ≠ [] := by simp
    unfold parse_ursparse
    rw [if_neg hne]
    show phaseOffset (ods ++ w1 :: (ws1t ++ (zds ++ (sps ++ '\n' :: rest)))) 0
      ⟨0, 0, UState.offset⟩ s = _
    unfold phaseOffset
    simp only [hpu1, hd1]
    unfold phaseSize
    simp only [hpu2, hd2]
    unfold phaseNewline
    simp only [hpn, do_hole]
    rw [if_neg (by norm_num : ¬((0 : Int) < 0))]
    simp only [hd3]
    exact phaseMeat_zero_size rest _ (List.foldl accDigit 0 ods) _
  rw [hfinal]
  exact ⟨rfl, rfl, rfl⟩

/-- Claim C9 witness: the zero-length-record theorem at the concrete header
`"5 0\n"` with no continuation, on the empty sink. -/
theorem zero_length_record_rejected_witness :
    (parse_ursparse (['5'] ++ [' '] ++ ['0'] ++ [] ++ '\n' :: []) data0 sink0).ret = -2 ∧
    (parse_ursparse (['5'] ++ [' '] ++ ['0'] ++ [] ++ '\n' :: []) data0 sink0).d =
      ⟨List.foldl accDigit 0 ['5'], 0, UState.error⟩ ∧
    (parse_ursparse (['5'] ++ [' '] ++ ['0'] ++ [] ++ '\n' :: []) data0 sink0).s =
      { sink0 with pos := List.foldl accDigit 0 ['5'] } :=
  zero_length_record_rejected ['5'] [' '] ['0'] [] [] sink0 (by decide) (by decide)
    (by decide) (by decide) (by decide) (by decide) (by decide)

/-- Claim C10: `do_ursparse` starts by seeking the input to offset 0; when
the input is not seekable that fails and the run aborts with return 1
before anything is read: the result does not depend on the input chunks at
all, the decoder state is never created and the sink is untouched — so
decoding from a pipe always fails. -/
theorem nonseekable_input_fails (chunks : List (List Char)) :
    do_ursparse false chunks = (1, data0, sink0) := rfl
